import Mathlib

/-!
Verification of the week-planner plugin (markdown section editor, working-day
date helper, undo log, task mover).

Strings from the TypeScript source are embedded as `List Char`; file content
is the raw character list, and the line structure is recovered with
`splitOnChar '\n'`, mirroring JavaScript's `content.split('\n')`.  Array
mutation through `splice` is embedded with `List.take`/`List.drop`, which has
exactly JavaScript's clamping behaviour for out-of-range start positions.
-/

abbrev Chars := List Char

/-- Shorthand turning a Lean string literal into the `List Char` embedding. -/
def str (s : String) : Chars := s.toList

/-- Prepends a character to the first piece of a split result (helper for
`splitOnChar`). -/
def consHead (c : Char) : List Chars → List Chars
  | [] => [[c]]
  | l :: ls => (c :: l) :: ls

/-- Splits a character list at every occurrence of `sep`, like JavaScript
`String.prototype.split` with a single-character separator: the result is
never empty, and splitting the empty string yields `[[]]`. -/
def splitOnChar (sep : Char) : Chars → List Chars
  | [] => [[]]
  | c :: cs =>
    if c = sep then [] :: splitOnChar sep cs else consHead c (splitOnChar sep cs)

/-- Joins pieces back with the separator, like `Array.prototype.join`. -/
def joinWithChar (sep : Char) : List Chars → Chars
  | [] => []
  | [l] => l
  | l :: l' :: ls => l ++ sep :: joinWithChar sep (l' :: ls)

/-- Line view of file content, `content.split('\n')` in the source. -/
def splitNl (cs : Chars) : List Chars := splitOnChar '\n' cs

/-- Rebuilds file content from lines, `lines.join('\n')` in the source. -/
def joinNl (ls : List Chars) : Chars := joinWithChar '\n' ls

/-- Whitespace test backing the embedding of `String.prototype.trim`. -/
def isWsChar (c : Char) : Bool := c = ' ' || c = '\t' || c = '\n' || c = '\r'

/-- Embedding of JavaScript `String.prototype.trim`. -/
def trimJs (s : Chars) : Chars :=
  ((s.dropWhile isWsChar).reverse.dropWhile isWsChar).reverse

/-- First index whose element satisfies `p`; embeds `Array.prototype.findIndex`
(`-1` becomes `none`). -/
def findIdxJs (p : α → Bool) : List α → Option Nat
  | [] => none
  | a :: as => if p a then some 0 else (findIdxJs p as).map (· + 1)

/-- JavaScript `array.splice(pos, 0, ...new)`: inserts `new` at `pos`,
clamped to the array length. -/
def spliceIns (lines : List α) (pos : Nat) (new : List α) : List α :=
  lines.take pos ++ new ++ lines.drop pos

theorem splitOnChar_ne_nil (sep : Char) (cs : Chars) : splitOnChar sep cs ≠ [] := by
  induction cs with
  | nil => simp [splitOnChar]
  | cons c cs ih =>
    simp only [splitOnChar]
    split
    · simp
    · cases h : splitOnChar sep cs with
      | nil => exact absurd h ih
      | cons l ls => simp [consHead]

theorem joinWithChar_cons_cons (sep : Char) (a b : Chars) (ls : List Chars) :
    joinWithChar sep (a :: b :: ls) = a ++ sep :: joinWithChar sep (b :: ls) := rfl

/-- Splitting then joining is the identity on the raw characters, so a file is
unchanged whenever the source re-joins an unmodified line array. -/
theorem joinWithChar_splitOnChar (sep : Char) (cs : Chars) :
    joinWithChar sep (splitOnChar sep cs) = cs := by
  induction cs with
  | nil => rfl
  | cons c cs ih =>
    simp only [splitOnChar]
    by_cases hc : c = sep
    · subst hc
      rw [if_pos rfl]
      cases h : splitOnChar c cs with
      | nil => exact absurd h (splitOnChar_ne_nil c cs)
      | cons l ls =>
        rw [h] at ih
        rw [joinWithChar_cons_cons]
        simpa using ih
    · rw [if_neg hc]
      cases h : splitOnChar sep cs with
      | nil => exact absurd h (splitOnChar_ne_nil sep cs)
      | cons l ls =>
        rw [h] at ih
        cases ls with
        | nil =>
          simp only [consHead, joinWithChar] at ih ⊢
          simp [ih]
        | cons l' ls' =>
          rw [joinWithChar_cons_cons] at ih
          simp only [consHead]
          rw [joinWithChar_cons_cons]
          simp only [List.cons_append, ih]

/-- Pieces produced by splitting never contain the separator. -/
theorem not_mem_of_mem_splitOnChar (sep : Char) (cs : Chars) :
    ∀ l ∈ splitOnChar sep cs, sep ∉ l := by
  induction cs with
  | nil => intro l hl; simp [splitOnChar] at hl; simp [hl]
  | cons c cs ih =>
    intro l hl
    simp only [splitOnChar] at hl
    by_cases hc : c = sep
    · rw [if_pos hc] at hl
      rcases List.mem_cons.mp hl with hl | hl
      · subst hl; simp
      · exact ih l hl
    · rw [if_neg hc] at hl
      cases h : splitOnChar sep cs with
      | nil => exact absurd h (splitOnChar_ne_nil sep cs)
      | cons m ms =>
        rw [h] at hl
        simp only [consHead] at hl
        rcases List.mem_cons.mp hl with hl | hl
        · subst hl
          intro hmem
          rcases List.mem_cons.mp hmem with h1 | h1
          · exact hc h1.symm
          · exact ih m (h ▸ List.mem_cons_self m ms) h1
        · exact ih l (h ▸ List.mem_cons.mpr (Or.inr hl))

/-- Splitting a string that starts with a separator-free piece followed by the
separator peels off that piece. -/
theorem splitOnChar_piece_cons (sep : Char) (b rest : Chars) (hb : sep ∉ b) :
    splitOnChar sep (b ++ sep :: rest) = b :: splitOnChar sep rest := by
  induction b with
  | nil => simp [splitOnChar]
  | cons c b ih =>
    have hc : c ≠ sep := fun h => hb (h ▸ List.mem_cons_self c b)
    have hb' : sep ∉ b := fun h => hb (List.mem_cons.mpr (Or.inr h))
    rw [List.cons_append]
    simp only [splitOnChar, if_neg hc]
    rw [ih hb']
    rfl

/-- Joining a nonempty prefix and a nonempty suffix of line lists. -/
theorem joinWithChar_append (sep : Char) (P R : List Chars) (hP : P ≠ []) (hR : R ≠ []) :
    joinWithChar sep (P ++ R) = joinWithChar sep P ++ sep :: joinWithChar sep R := by
  induction P with
  | nil => exact absurd rfl hP
  | cons p P ih =>
    cases P with
    | nil =>
      cases R with
      | nil => exact absurd rfl hR
      | cons r R => simp [joinWithChar_cons_cons, joinWithChar]
    | cons p' P' =>
      have hmid : joinWithChar sep (p' :: P' ++ R) =
          joinWithChar sep (p' :: P') ++ sep :: joinWithChar sep R := ih (by simp)
      have hform : (p :: p' :: P') ++ R = p :: p' :: (P' ++ R) := by simp
      rw [hform, joinWithChar_cons_cons, ← List.cons_append, hmid, joinWithChar_cons_cons]
      simp

/-- Splitting content that begins with separator-free pieces `P` recovers `P`
as the leading lines. -/
theorem splitOnChar_join_parts (sep : Char) (P : List Chars) (rest : Chars)
    (hP : P ≠ []) (hnf : ∀ l ∈ P, sep ∉ l) :
    splitOnChar sep (joinWithChar sep P ++ sep :: rest) = P ++ splitOnChar sep rest := by
  induction P with
  | nil => exact absurd rfl hP
  | cons p P ih =>
    cases P with
    | nil =>
      simp only [joinWithChar, List.nil_append]
      rw [splitOnChar_piece_cons sep p rest (hnf p (List.mem_cons_self p []))]
      simp
    | cons p' P' =>
      rw [joinWithChar_cons_cons, List.append_assoc, List.cons_append]
      rw [splitOnChar_piece_cons sep p _ (hnf p (List.mem_cons_self _ _))]
      rw [ih (by simp) (fun l hl => hnf l (List.mem_cons.mpr (Or.inr hl)))]
      simp

theorem findIdxJs_eq_none_iff (p : α → Bool) (l : List α) :
    findIdxJs p l = none ↔ ∀ a ∈ l, p a = false := by
  induction l with
  | nil => simp [findIdxJs]
  | cons a as ih =>
    simp only [findIdxJs]
    by_cases h : p a
    · simp [h]
    · rw [if_neg h]
      constructor
      · intro hmap
        have hnone : findIdxJs p as = none := by
          cases hfi : findIdxJs p as with
          | none => rfl
          | some k => rw [hfi] at hmap; simp at hmap
        intro b hb
        rcases List.mem_cons.mp hb with hb | hb
        · subst hb; exact Bool.eq_false_iff.mpr h
        · exact (ih.mp hnone) b hb
      · intro hall
        have hnone : findIdxJs p as = none :=
          ih.mpr (fun b hb => hall b (List.mem_cons.mpr (Or.inr hb)))
        rw [hnone]
        rfl

theorem findIdxJs_some (p : α → Bool) (l : List α) (i : Nat)
    (h : findIdxJs p l = some i) :
    (∃ a, l.get? i = some a ∧ p a = true) ∧
      ∀ j, j < i → ∀ a, l.get? j = some a → p a = false := by
  induction l generalizing i with
  | nil => simp [findIdxJs] at h
  | cons a as ih =>
    simp only [findIdxJs] at h
    by_cases hp : p a
    · rw [if_pos hp] at h
      cases h
      refine ⟨⟨a, rfl, hp⟩, ?_⟩
      intro j hj
      omega
    · rw [if_neg hp] at h
      cases hi : findIdxJs p as with
      | none => rw [hi] at h; simp at h
      | some k =>
        rw [hi] at h
        have hk : k + 1 = i := by simpa using h
        subst hk
        obtain ⟨⟨b, hb, hpb⟩, hmin⟩ := ih k hi
        refine ⟨⟨b, by simpa using hb, hpb⟩, ?_⟩
        intro j hj c hc
        cases j with
        | zero =>
          simp only [List.get?] at hc
          cases hc
          exact Bool.eq_false_iff.mpr hp
        | succ j' =>
          simp only [List.get?] at hc
          exact hmin j' (by omega) c hc

theorem findIdxJs_some_of (p : α → Bool) (l : List α) (i : Nat) (a : α)
    (hget : l.get? i = some a) (hp : p a = true)
    (hmin : ∀ j, j < i → ∀ b, l.get? j = some b → p b = false) :
    findIdxJs p l = some i := by
  induction l generalizing i with
  | nil => simp at hget
  | cons x xs ih =>
    cases i with
    | zero =>
      simp only [List.get?] at hget
      cases hget
      simp [findIdxJs, hp]
    | succ i' =>
      have hx : p x = false := hmin 0 (Nat.succ_pos i') x rfl
      simp only [findIdxJs]
      rw [if_neg (by simp [hx])]
      have hrec := ih i' (by simpa using hget)
        (fun j hj b hb => hmin (j + 1) (by omega) b (by simpa using hb))
      rw [hrec]
      rfl

/-!
Date and working-day helper.

A calendar date is embedded as an integer day number; adding one calendar day
(`moment.add(1, 'days')`) is `d + 1`.  Day number `0` is a Monday, so the
weekday abbreviation of a date is determined by `d % 7`.
-/

/-- The seven recognised three-letter weekday abbreviations, Monday first. -/
def weekdayNames : List Chars :=
  [str "Mon", str "Tue", str "Wed", str "Thu", str "Fri", str "Sat", str "Sun"]

/-- Weekday abbreviation of a day number (`moment(date).format('ddd')`). -/
def weekdayAbbrev (d : Int) : Chars := weekdayNames.getD (d % 7).toNat []

/-- Modelled from the spec: `isWorkingDay` lives in `src/date.ts`, which is
absent from the sources; per the spec the working-days value is a
comma-separated list of three-letter weekday abbreviations and the function
returns whether the date's weekday abbreviation is in that set. -/
def isWorkingDay (d : Int) (workingDays : Chars) : Bool :=
  (splitOnChar ',' workingDays).contains (weekdayAbbrev d)

/-- Modelled from the spec: `allDaysValid` lives in the absent `src/date.ts`;
per the spec the working-days value is invalid if it contains an unrecognized
token, so this checks every comma token against the fixed abbreviation set. -/
def allDaysValid (days : List Chars) : Bool :=
  days.all (fun t => weekdayNames.contains t)

/-- Embeds `isValidWorkingDaysString` from `src/src/file.ts`. -/
def isValidWorkingDaysString (value : Chars) : Bool :=
  if trimJs value = [] then false else allDaysValid (splitOnChar ',' value)

/-- Fuel-indexed embedding of the `do { date.add(1,'days') } while
(!isWorkingDay(date)) ` loop of `getNextWorkingDay` (src/src/file.ts): each
step advances one day and stops at the first working day; `none` means the
loop has not terminated within `fuel` iterations. -/
def getNextWorkingDayFuel (workingDays : Chars) (d : Int) : Nat → Option Int
  | 0 => none
  | n + 1 =>
    if isWorkingDay (d + 1) workingDays then some (d + 1)
    else getNextWorkingDayFuel workingDays (d + 1) n

/-- `getNextWorkingDay` with enough fuel for a full week, which suffices
whenever the working-days value denotes at least one weekday. -/
def getNextWorkingDay (workingDays : Chars) (d : Int) : Option Int :=
  getNextWorkingDayFuel workingDays d 7

/-- Fuel-indexed embedding of the backward loop of `getYesterdayDate`
(src/src/file.ts): starts at the day before `d` and walks back until a
working day is hit. -/
def getYesterdayDateFuel (workingDays : Chars) (d : Int) : Nat → Option Int
  | 0 => none
  | n + 1 =>
    if isWorkingDay (d - 1) workingDays then some (d - 1)
    else getYesterdayDateFuel workingDays (d - 1) n

theorem contains_iff_mem (l : List Chars) (a : Chars) : l.contains a = true ↔ a ∈ l := by
  induction l with
  | nil => simp [List.contains]
  | cons x xs ih =>
    simp only [List.contains] at ih ⊢
    rw [List.elem_cons]
    by_cases hx : a = x
    · subst hx; simp
    · have hbeq : (a == x) = false := by
        simp [hx]
      rw [hbeq]
      simp only [List.mem_cons]
      constructor
      · intro h; exact Or.inr (ih.mp h)
      · intro h
        rcases h with h | h
        · exact absurd h hx
        · exact ih.mpr h

theorem getNextWorkingDayFuel_finds (workingDays : Chars) :
    ∀ (fuel : Nat) (d : Int),
      (∃ k : Nat, k < fuel ∧ isWorkingDay (d + 1 + k) workingDays = true) →
      ∃ r, getNextWorkingDayFuel workingDays d fuel = some r ∧ d < r ∧
        isWorkingDay r workingDays = true := by
  intro fuel
  induction fuel with
  | zero => intro d h; obtain ⟨k, hk, _⟩ := h; omega
  | succ n ih =>
    intro d h
    by_cases hw : isWorkingDay (d + 1) workingDays = true
    · exact ⟨d + 1, by simp [getNextWorkingDayFuel, hw], by omega, hw⟩
    · obtain ⟨k, hk, hkw⟩ := h
      have hk0 : k ≠ 0 := by
        intro h0
        subst h0
        simp only [Nat.cast_zero, add_zero] at hkw
        exact hw hkw
      have hstep : ∃ k' : Nat, k' < n ∧ isWorkingDay (d + 1 + 1 + k') workingDays = true := by
        refine ⟨k - 1, by omega, ?_⟩
        have : (d + 1 + 1 + (k - 1 : Nat) : Int) = d + 1 + k := by
          omega
        rw [this]
        exact hkw
      obtain ⟨r, hr, hlt, hrw⟩ := ih (d + 1) hstep
      refine ⟨r, ?_, by omega, hrw⟩
      simp only [getNextWorkingDayFuel, hw]
      simpa using hr

theorem getYesterdayDateFuel_finds (workingDays : Chars) :
    ∀ (fuel : Nat) (d : Int),
      (∃ k : Nat, k < fuel ∧ isWorkingDay (d - 1 - k) workingDays = true) →
      ∃ r, getYesterdayDateFuel workingDays d fuel = some r ∧ r < d ∧
        isWorkingDay r workingDays = true := by
  intro fuel
  induction fuel with
  | zero => intro d h; obtain ⟨k, hk, _⟩ := h; omega
  | succ n ih =>
    intro d h
    by_cases hw : isWorkingDay (d - 1) workingDays = true
    · exact ⟨d - 1, by simp [getYesterdayDateFuel, hw], by omega, hw⟩
    · obtain ⟨k, hk, hkw⟩ := h
      have hk0 : k ≠ 0 := by
        intro h0
        subst h0
        simp only [Nat.cast_zero, sub_zero] at hkw
        exact hw hkw
      have hstep : ∃ k' : Nat, k' < n ∧ isWorkingDay (d - 1 - 1 - k') workingDays = true := by
        refine ⟨k - 1, by omega, ?_⟩
        have : (d - 1 - 1 - (k - 1 : Nat) : Int) = d - 1 - k := by
          omega
        rw [this]
        exact hkw
      obtain ⟨r, hr, hlt, hrw⟩ := ih (d - 1) hstep
      refine ⟨r, ?_, by omega, hrw⟩
      simp only [getYesterdayDateFuel, hw]
      simpa using hr

theorem exists_working_day_forward (workingDays : Chars) (i : Nat) (hi : i < 7)
    (hmem : weekdayNames.getD i [] ∈ splitOnChar ',' workingDays) (d : Int) :
    ∃ k : Nat, k < 7 ∧ isWorkingDay (d + 1 + k) workingDays = true := by
  refine ⟨(((i : Int) - (d + 1)) % 7).toNat, by omega, ?_⟩
  unfold isWorkingDay
  have hmod : ((d + 1 + ((((i : Int) - (d + 1)) % 7).toNat : Int)) % 7).toNat = i := by
    omega
  unfold weekdayAbbrev
  rw [hmod]
  exact (contains_iff_mem _ _).mpr hmem

theorem exists_working_day_backward (workingDays : Chars) (i : Nat) (hi : i < 7)
    (hmem : weekdayNames.getD i [] ∈ splitOnChar ',' workingDays) (d : Int) :
    ∃ k : Nat, k < 7 ∧ isWorkingDay (d - 1 - k) workingDays = true := by
  refine ⟨(((d - 1) - (i : Int)) % 7).toNat, by omega, ?_⟩
  unfold isWorkingDay
  have hmod : ((d - 1 - ((((d - 1) - (i : Int)) % 7).toNat : Int)) % 7).toNat = i := by
    omega
  unfold weekdayAbbrev
  rw [hmod]
  exact (contains_iff_mem _ _).mpr hmem

theorem valid_working_days_has_token (v : Chars)
    (h : isValidWorkingDaysString v = true) :
    ∃ i : Nat, i < 7 ∧ weekdayNames.getD i [] ∈ splitOnChar ',' v := by
  unfold isValidWorkingDaysString at h
  by_cases htrim : trimJs v = []
  · rw [if_pos htrim] at h; exact absurd h (by simp)
  · rw [if_neg htrim] at h
    cases hs : splitOnChar ',' v with
    | nil => exact absurd hs (splitOnChar_ne_nil ',' v)
    | cons t ts =>
      unfold allDaysValid at h
      rw [hs] at h
      have ht : weekdayNames.contains t = true := by
        have := List.all_eq_true.mp h t (List.mem_cons_self t ts)
        simpa using this
      have htm : t ∈ weekdayNames := (contains_iff_mem _ _).mp ht
      have hmem : t ∈ splitOnChar ',' v := by rw [hs]; exact List.mem_cons_self t ts
      simp only [weekdayNames, List.mem_cons, List.not_mem_nil, or_false] at htm
      rcases htm with h1 | h1 | h1 | h1 | h1 | h1 | h1 <;>
        subst h1 <;>
        first
        | exact ⟨0, by omega, by simpa [weekdayNames] using hmem⟩
        | exact ⟨1, by omega, by simpa [weekdayNames] using hmem⟩
        | exact ⟨2, by omega, by simpa [weekdayNames] using hmem⟩
        | exact ⟨3, by omega, by simpa [weekdayNames] using hmem⟩
        | exact ⟨4, by omega, by simpa [weekdayNames] using hmem⟩
        | exact ⟨5, by omega, by simpa [weekdayNames] using hmem⟩
        | exact ⟨6, by omega, by simpa [weekdayNames] using hmem⟩

theorem no_working_token_never_working (workingDays : Chars)
    (h : ∀ i : Nat, i < 7 → weekdayNames.getD i [] ∉ splitOnChar ',' workingDays)
    (e : Int) : isWorkingDay e workingDays = false := by
  unfold isWorkingDay weekdayAbbrev
  have hb : (e % 7).toNat < 7 := by omega
  have := h (e % 7).toNat hb
  by_cases hc : (splitOnChar ',' workingDays).contains (weekdayNames.getD (e % 7).toNat []) = true
  · exact absurd ((contains_iff_mem _ _).mp hc) this
  · exact Bool.eq_false_iff.mpr hc

/-!
Section editor, current variant of `src/src/file.ts` (class `WeekPlannerFile`
and the free functions below it).
-/

/-- Plugin settings (`src/src/settings.ts`). -/
structure WeekPlannerPluginSettings where
  workingDays : Chars
  baseDir : Chars
  dailyNoteTemplate : Chars
  tagBaseFolder : Chars
deriving DecidableEq

/-- Result record of `insertAt` (`InsertResult` in the source). -/
structure InsertResult where
  insertedLines : List Nat
  headerAdded : Bool
deriving DecidableEq

/-- Tests whether the characters from position `j` start with `"\n---"`
(the closing delimiter sought by the frontmatter regex). -/
def fmClose : Chars := ['\n', '-', '-', '-']

/-- Least offset at which `"\n---"` occurs, matching the lazy quantifier of
the regex `^---\n[\s\S]*?\n---\n?`. -/
def findFmClose : Chars → Option Nat
  | [] => none
  | c :: rest =>
    if fmClose.isPrefixOf (c :: rest) then some 0
    else (findFmClose rest).map (· + 1)

/-- Character length of the match of `content.match(/^---\n[\s\S]*?\n---\n?/)`
(`none` when the regex does not match); `frontMatterMatch[0].length` in
`insertAt`.  The lazy body stops at the earliest `"\n---"`, and the trailing
`\n?` greedily takes one more newline when present. -/
def frontMatterLen (content : Chars) : Option Nat :=
  if (str "---\n").isPrefixOf content then
    match findFmClose (content.drop 4) with
    | none => none
    | some k =>
      if content.get? (8 + k) = some '\n' then some (9 + k) else some (8 + k)
  else none

/-- Embeds `findHeaderLine` of the current `WeekPlannerFile`: first line whose
trimmed text equals `"## " + header`. -/
def findHeaderLine (lines : List Chars) (header : Chars) : Option Nat :=
  findIdxJs (fun l => trimJs l = '#' :: '#' :: ' ' :: header) lines

/-- Blank-line test used by `insertAt` (`lines[p].trim() === ''`). -/
def isBlankLine (l : Chars) : Bool := trimJs l = []

/-- The loop `while (insertPosition < lines.length && lines[insertPosition]
.trim() === '') lines.splice(insertPosition, 1)` of `insertAt`: removes the
run of blank lines starting at `pos`. -/
def removeBlanksAt (lines : List Chars) (pos : Nat) : List Chars :=
  lines.take pos ++ (lines.drop pos).dropWhile isBlankLine

/-- Embeds `insertAt` of the current `WeekPlannerFile` (src/src/file.ts):
given the file content, the text to insert and the header name, returns the
new file content together with the `InsertResult`.  Note the quirks of the
source, which the theorems below are about: `insertStart` is the character
length of the frontmatter match but is used as a line index, and the header
search starts after `content.slice(0, insertStart).split('\n').length` lines
(one line too many, since that count includes the empty piece after the
final newline of the frontmatter — or the sole empty piece when there is no
frontmatter). -/
def insertAt (content text header : Chars) : Chars × InsertResult :=
  let lines := splitNl content
  let fm := frontMatterLen content
  let insertStart := fm.getD 0
  let skip := (splitNl (content.take insertStart)).length
  let linesAfterFrontMatter := lines.drop skip
  let headerLineIndexRelative := findHeaderLine linesAfterFrontMatter header
  match headerLineIndexRelative with
  | some rel =>
    let insertPosition := rel + insertStart + 1
    let lines1 := removeBlanksAt lines insertPosition
    let lines2 := spliceIns lines1 insertPosition [text, []]
    (joinNl lines2, ⟨[insertPosition, insertPosition + 1], false⟩)
  | none =>
    let headerContent := '#' :: '#' :: ' ' :: header ++ '\n' :: text ++ ['\n']
    match fm with
    | some l => (joinNl (spliceIns lines l [headerContent]), ⟨[l, l + 1], true⟩)
    | none => (joinNl ([] :: headerContent :: lines), ⟨[0, 1, 2], true⟩)

/-- Embeds `deleteLine` of the current `WeekPlannerFile` (src/src/file.ts):
removes `lines[lineNumber]` when it equals `lineText`, otherwise the first
line equal to `lineText`, otherwise nothing; the (possibly unchanged) line
array is rejoined and written back. -/
def deleteLine (content : Chars) (lineNumber : Nat) (lineText : Chars) : Chars :=
  let lines := splitNl content
  let lines' :=
    if lines.get? lineNumber = some lineText then lines.eraseIdx lineNumber
    else
      match findIdxJs (fun l => l = lineText) lines with
      | some index => lines.eraseIdx index
      | none => lines
  joinNl lines'

/-- Embeds `extendFileName` (src/src/file.ts).  A missing filename argument
(`undefined` in the TypeScript caller) is coerced by JavaScript's string
concatenation to the text "undefined". -/
def jsStringOfOption : Option Chars → Chars
  | some s => s
  | none => str "undefined"

def extendFileName (settings : WeekPlannerPluginSettings) (filename : Option Chars) : Chars :=
  if filename = some (str "Inbox.md") then
    settings.baseDir ++ '/' :: str "Inbox.md"
  else
    settings.baseDir ++ '/' :: jsStringOfOption filename

/-- Embeds `getInboxFileName` (src/src/file.ts). -/
def getInboxFileName (settings : WeekPlannerPluginSettings) : Chars :=
  settings.baseDir ++ '/' :: str "Inbox.md"

/-!
Secondary variant of `WeekPlannerFile.deleteLine` (the copy of
`src/src/file.ts` that performs the Inbox header cleanup after a deletion),
in its own namespace.
-/

namespace FileAlt

/-- To-do test of the cleanup loop: `trimmedLine.startsWith('- [ ]') ||
trimmedLine.startsWith('- [x]')`. -/
def isTodoLine (l : Chars) : Bool :=
  (str "- [ ]").isPrefixOf (trimJs l) || (str "- [x]").isPrefixOf (trimJs l)

/-- Header test of the cleanup loop: `trimmedLine.startsWith('#')`. -/
def isHashLine (l : Chars) : Bool := (str "#").isPrefixOf (trimJs l)

/-- Inbox header test: `line.trim() === '# Inbox' || line.trim() === '## Inbox'`. -/
def isInboxHeader (l : Chars) : Bool :=
  trimJs l = str "# Inbox" || trimJs l = str "## Inbox"

/-- The scan `for (let i = inboxHeaderIndex + 1; ...)` applied to the lines
after the header: reports a to-do before the next header line. -/
def hasTodosScan : List Chars → Bool
  | [] => false
  | l :: rest =>
    if isTodoLine l then true
    else if isHashLine l then false
    else hasTodosScan rest

/-- The cleanup step of this variant's `deleteLine`: find the first
`# Inbox`/`## Inbox` line; when it has no remaining to-dos before the next
header, remove it and one immediately-following empty line. -/
def inboxCleanup (lines : List Chars) : List Chars :=
  match findIdxJs isInboxHeader lines with
  | none => lines
  | some i =>
    if hasTodosScan (lines.drop (i + 1)) then lines
    else
      let l1 := lines.eraseIdx i
      if l1.get? i = some [] then l1.eraseIdx i else l1

/-- Embeds the secondary `deleteLine`: same line removal as the current
variant, but it returns early (no write) when the line is not found, and runs
`inboxCleanup` after a successful removal. -/
def deleteLine (content : Chars) (lineNumber : Nat) (lineText : Chars) : Chars :=
  let lines := splitNl content
  if lines.get? lineNumber = some lineText then
    joinNl (inboxCleanup (lines.eraseIdx lineNumber))
  else
    match findIdxJs (fun l => l = lineText) lines with
    | some index => joinNl (inboxCleanup (lines.eraseIdx index))
    | none => content

end FileAlt

/-!
Task mover and undo log (`src/main.ts`, current variant).  The vault is
embedded as an association list from file names to raw content; `move` and
`undoLastAction` are the state transformers of the plugin.
-/

/-- Modelled from the spec: `TODO_PREFIX`/`TODO_DONE_PREFIX` live in the
absent `src/src/constants.ts`; per the spec a line is a to-do iff it starts
with the fixed open/done marker, written `- [ ] ` and `- [x] ` as in the
secondary variant's literals. -/
def todoMarkerOpen : Chars := str "- [ ] "

/-- Modelled from the spec: the done marker, see `todoMarkerOpen`. -/
def todoMarkerDone : Chars := str "- [x] "

/-- The guard `taskContent.startsWith(TODO_PREFIX) ||
taskContent.startsWith(TODO_DONE_PREFIX)` of `move`. -/
def isTaskContent (l : Chars) : Bool :=
  todoMarkerOpen.isPrefixOf l || todoMarkerDone.isPrefixOf l

/-- Undo record (`TaskAction` in `src/src/actions.ts`). -/
structure TaskAction where
  sourceFile : Chars
  destFile : Chars
  taskContent : Chars
  sourceLine : Nat
  insertedLines : List Nat
  headerAdded : Bool
deriving DecidableEq

/-- Plugin state: the vault's files (name, content) and the undo stack. -/
structure PluginState where
  files : List (Chars × Chars)
  undoStack : List TaskAction
deriving DecidableEq

/-- Reads a file's content from the vault (files are assumed to exist for
reads, as in the source where a missing file only logs and aborts). -/
def readFile (files : List (Chars × Chars)) (name : Chars) : Chars :=
  ((files.find? (fun p => p.1 = name)).map Prod.snd).getD []

/-- `vault.modify`: replaces the content stored under `name`. -/
def writeFile (files : List (Chars × Chars)) (name : Chars) (content : Chars) :
    List (Chars × Chars) :=
  files.map (fun p => if p.1 = name then (p.1, content) else p)

/-- `createIfNotExists` of `WeekPlannerFile` for a plain settings object with
no daily-note template: a missing file is created with `## <header>\n\n`. -/
def createIfNotExists (files : List (Chars × Chars)) (name header : Chars) :
    List (Chars × Chars) :=
  if (files.find? (fun p => p.1 = name)).isSome then files
  else files ++ [(name, '#' :: '#' :: ' ' :: header ++ ['\n', '\n'])]

/-- The stack update at the end of `move`: push, then `shift()` the oldest
entry when the length exceeds 50. -/
def movePushStack (stack : List TaskAction) (action : TaskAction) : List TaskAction :=
  let st := stack ++ [action]
  if 50 < st.length then st.tail else st

/-- Embeds `move` of `WeekPlannerPlugin` (src/main.ts): reads the cursor
line from the source file, and when it is a to-do line deletes it from the
source, inserts it into the destination (re-reading the post-deletion content
when source and destination are the same file), and records a `TaskAction`. -/
def move (st : PluginState) (srcName dstName : Chars) (line : Nat) (header : Chars) :
    PluginState :=
  let srcContent := readFile st.files srcName
  let taskContent := (splitNl srcContent).getD line []
  if isTaskContent taskContent then
    let files1 := writeFile st.files srcName (deleteLine srcContent line taskContent)
    let step :=
      if srcName = dstName then
        let content := readFile files1 dstName
        let r := insertAt content taskContent header
        (writeFile files1 dstName r.1, r.2)
      else
        let files2 := createIfNotExists files1 dstName header
        let r := insertAt (readFile files2 dstName) taskContent header
        (writeFile files2 dstName r.1, r.2)
    { files := step.1,
      undoStack := movePushStack st.undoStack
        ⟨srcName, dstName, taskContent, line, step.2.insertedLines, step.2.headerAdded⟩ }
  else st

/-- Descending sort of the recorded line indices,
`insertedLines.sort((a, b) => b - a)` in `undoLastAction`. -/
def insertDescending (x : Nat) : List Nat → List Nat
  | [] => [x]
  | y :: ys => if y ≤ x then x :: y :: ys else y :: insertDescending x ys

def sortDescending (l : List Nat) : List Nat := l.foldr insertDescending []

/-- The task scan of `undoLastAction`: raw `startsWith` against the to-do
markers, stopping at a raw `'## '` line. -/
def undoHasTasks : List Chars → Bool
  | [] => false
  | l :: rest =>
    if isTaskContent l then true
    else if (str "## ").isPrefixOf l then false
    else undoHasTasks rest

/-- The loop `while (destLines[headerLineIndex] === '') splice(...)`:
removes the run of exactly-empty lines at `pos`. -/
def removeEmptyRunAt (lines : List Chars) (pos : Nat) : List Chars :=
  lines.take pos ++ (lines.drop pos).dropWhile (fun l => l = [])

/-- Embeds `undoLastAction` of `WeekPlannerPlugin` (src/main.ts): pops the
most recent `TaskAction`, deletes the recorded inserted line indices from the
destination in descending order (skipping out-of-range indices), collapses a
task-less `## Inbox` header when the move had not added the header, and
re-inserts the task text at the recorded source line. -/
def undoLastAction (st : PluginState) : PluginState :=
  match st.undoStack.getLast? with
  | none => st
  | some action =>
    let stack' := st.undoStack.dropLast
    let destLines := splitNl (readFile st.files action.destFile)
    let sorted := sortDescending action.insertedLines
    let destLines1 := sorted.foldl
      (fun ls i => if i < ls.length then ls.eraseIdx i else ls) destLines
    let destLines2 :=
      if action.headerAdded then destLines1
      else
        match findIdxJs (fun l => trimJs l = str "## Inbox") destLines1 with
        | none => destLines1
        | some hi =>
          if undoHasTasks (destLines1.drop (hi + 1)) then destLines1
          else removeEmptyRunAt (destLines1.eraseIdx hi) hi
    let files1 := writeFile st.files action.destFile (joinNl destLines2)
    let srcLines := splitNl (readFile files1 action.sourceFile)
    let srcLines' := spliceIns srcLines action.sourceLine [action.taskContent]
    { files := writeFile files1 action.sourceFile (joinNl srcLines'),
      undoStack := stack' }

/-!
Claim theorems.
-/

theorem movePushStack_length_le (s : List TaskAction) (a : TaskAction)
    (h : s.length ≤ 50) : (movePushStack s a).length ≤ 50 := by
  unfold movePushStack
  by_cases hlen : 50 < (s ++ [a]).length
  · rw [if_pos hlen]
    simp only [List.length_tail, List.length_append, List.length_singleton]
    omega
  · rw [if_neg hlen]
    simp only [List.length_append, List.length_singleton] at hlen ⊢
    omega

/-- Claim C10: `extendFileName` always returns `settings.baseDir + '/' +
filename`; in particular the special-case branch for the filename
`'Inbox.md'` returns exactly the value of the general branch, so the
conditional has no observable effect on the result. -/
theorem claim_C10_extendFileName (settings : WeekPlannerPluginSettings)
    (filename : Option Chars) :
    extendFileName settings filename =
      settings.baseDir ++ '/' :: jsStringOfOption filename := by
  unfold extendFileName
  by_cases h : filename = some (str "Inbox.md")
  · rw [if_pos h, h]
    rfl
  · rw [if_neg h]

/-- Claim C9: after every completed `move`, the undo stack holds at most 50
entries; a push onto a stack already holding fewer than 50 simply appends,
and a push onto a full stack of 50 evicts the oldest entry (the front). -/
theorem claim_C9_undo_stack_cap (st : PluginState) (srcName dstName header : Chars)
    (line : Nat) (action : TaskAction)
    (hlen : st.undoStack.length ≤ 50) :
    (move st srcName dstName line header).undoStack.length ≤ 50 ∧
    (st.undoStack.length < 50 →
      movePushStack st.undoStack action = st.undoStack ++ [action]) ∧
    (st.undoStack.length = 50 →
      movePushStack st.undoStack action = st.undoStack.tail ++ [action]) := by
  refine ⟨?_, ?_, ?_⟩
  · unfold move
    by_cases hg : isTaskContent ((splitNl (readFile st.files srcName)).getD line []) = true
    · simp only [hg, if_true]
      exact movePushStack_length_le _ _ hlen
    · simp only [Bool.not_eq_true] at hg
      simp only [hg, Bool.false_eq_true, if_false]
      exact hlen
  · intro hlt
    unfold movePushStack
    rw [if_neg (by simp only [List.length_append, List.length_singleton]; omega)]
  · intro heq
    unfold movePushStack
    rw [if_pos (by simp only [List.length_append, List.length_singleton]; omega)]
    cases hstk : st.undoStack with
    | nil => rw [hstk] at heq; simp at heq
    | cons x xs => simp

/-- Witness for claim C9 at a concrete state: an empty stack and a full
stack of 50 identical records. -/
theorem claim_C9_undo_stack_cap_witness :
    (move { files := [(str "s.md", str "- [ ] t"), (str "d.md", str "x")],
            undoStack := [] }
        (str "s.md") (str "d.md") 0 (str "Inbox")).undoStack.length ≤ 50 ∧
    movePushStack (List.replicate 50 ⟨[], [], [], 0, [], false⟩)
        ⟨[], [], str "new", 1, [2], true⟩ =
      (List.replicate 50 (⟨[], [], [], 0, [], false⟩ : TaskAction)).tail ++
        [⟨[], [], str "new", 1, [2], true⟩] := by
  constructor
  · exact (claim_C9_undo_stack_cap
      { files := [(str "s.md", str "- [ ] t"), (str "d.md", str "x")], undoStack := [] }
      (str "s.md") (str "d.md") (str "Inbox") 0 ⟨[], [], [], 0, [], false⟩
      (by decide)).1
  · exact (claim_C9_undo_stack_cap
      { files := [], undoStack := List.replicate 50 ⟨[], [], [], 0, [], false⟩ }
      [] [] [] 0 ⟨[], [], str "new", 1, [2], true⟩
      (by decide)).2.2 (by decide)

/-- Claim C7: `deleteLine` removes line `n` when it equals the expected
text; otherwise it removes the first line anywhere in the file equal to the
expected text; and when no line matches, the file content is left unchanged
(silent no-op rather than an error). -/
theorem claim_C7_deleteLine (content : Chars) (n : Nat) (t : Chars) :
    ((splitNl content).get? n = some t →
      deleteLine content n t = joinNl ((splitNl content).eraseIdx n)) ∧
    ((splitNl content).get? n ≠ some t →
      ∀ i, (splitNl content).get? i = some t →
        (∀ j, j < i → (splitNl content).get? j ≠ some t) →
        deleteLine content n t = joinNl ((splitNl content).eraseIdx i)) ∧
    ((∀ l ∈ splitNl content, l ≠ t) → deleteLine content n t = content) := by
  refine ⟨?_, ?_, ?_⟩
  · intro h
    simp only [deleteLine]
    rw [if_pos h]
  · intro h i hi hmin
    simp only [deleteLine]
    rw [if_neg h]
    have hfind : findIdxJs (fun l => l = t) (splitNl content) = some i := by
      apply findIdxJs_some_of (fun l => decide (l = t)) _ i t hi (by simp)
      intro j hj b hb
      have : b ≠ t := by
        intro hbt
        exact hmin j hj (hbt ▸ hb)
      simp [this]
    rw [hfind]
  · intro h
    simp only [deleteLine]
    have hn : ¬((splitNl content).get? n = some t) := by
      intro hc
      exact h t (List.get?_mem hc) rfl
    rw [if_neg hn]
    have hfind : findIdxJs (fun l => l = t) (splitNl content) = none := by
      rw [findIdxJs_eq_none_iff]
      intro a ha
      simp [h a ha]
    rw [hfind]
    exact joinWithChar_splitOnChar '\n' content

/-- Witness for claim C7 on the file `"a\nb\na"`: exact index match,
fallback first-occurrence match, and the unchanged no-match case. -/
theorem claim_C7_deleteLine_witness :
    deleteLine (str "a\nb\na") 1 (str "b") = str "a\na" ∧
    deleteLine (str "a\nb\na") 5 (str "a") = str "b\na" ∧
    deleteLine (str "a\nb\na") 0 (str "z") = str "a\nb\na" := by
  refine ⟨?_, ?_, ?_⟩
  · have h := (claim_C7_deleteLine (str "a\nb\na") 1 (str "b")).1 (by decide)
    exact h.trans (by decide)
  · have h := (claim_C7_deleteLine (str "a\nb\na") 5 (str "a")).2.1 (by decide) 0
      (by decide) (by intro j hj; omega)
    exact h.trans (by decide)
  · exact (claim_C7_deleteLine (str "a\nb\na") 0 (str "z")).2.2 (by decide)

/-- Claim C1 (failing input): moving the to-do on line 0 of `s.md` (content
`"- [ ] t\nrest"`) to `d.md` (content `"x"`) and then undoing leaves the
destination as `"\nx"` instead of restoring `"x"`: the recorded
`insertedLines` counts three array elements, but the inserted element that
contains embedded newlines occupies four lines once the file is re-split, so
the undo removes too little.  The source file is restored and exactly one
entry is popped. -/
theorem claim_C1_undo_not_restoring :
    (readFile (undoLastAction (move
        { files := [(str "s.md", str "- [ ] t\nrest"), (str "d.md", str "x")],
          undoStack := [] }
        (str "s.md") (str "d.md") 0 (str "Inbox"))).files (str "d.md")
      = str "\nx") ∧
    (readFile (undoLastAction (move
        { files := [(str "s.md", str "- [ ] t\nrest"), (str "d.md", str "x")],
          undoStack := [] }
        (str "s.md") (str "d.md") 0 (str "Inbox"))).files (str "d.md")
      ≠ str "x") ∧
    (readFile (undoLastAction (move
        { files := [(str "s.md", str "- [ ] t\nrest"), (str "d.md", str "x")],
          undoStack := [] }
        (str "s.md") (str "d.md") 0 (str "Inbox"))).files (str "s.md")
      = str "- [ ] t\nrest") ∧
    (move { files := [(str "s.md", str "- [ ] t\nrest"), (str "d.md", str "x")],
            undoStack := [] }
        (str "s.md") (str "d.md") 0 (str "Inbox")).undoStack.length = 1 ∧
    (undoLastAction (move
        { files := [(str "s.md", str "- [ ] t\nrest"), (str "d.md", str "x")],
          undoStack := [] }
        (str "s.md") (str "d.md") 0 (str "Inbox"))).undoStack.length = 0 := by
  decide

/-- Claim C4 (failing input): with content `"x\n## Inbox\ny"` the header is
at line 1, yet `insertAt` places the task and the blank line before the
header (the result is `"x\n- [ ] t\n\n## Inbox\ny"`), not after it as the
claim (and the source's own comment) states. -/
theorem claim_C4_insert_before_header :
    (insertAt (str "x\n## Inbox\ny") (str "- [ ] t") (str "Inbox")).1
        = str "x\n- [ ] t\n\n## Inbox\ny" ∧
    (insertAt (str "x\n## Inbox\ny") (str "- [ ] t") (str "Inbox")).1
        ≠ str "x\n## Inbox\n- [ ] t\n\ny" := by
  decide

/-- Claim C5 (failing input): with frontmatter `"---\na\n---\n"` (match
length 10) and no `## Inbox` header in `"---\na\n---\nx\ny\nz"`, the new
block is spliced at line index 10 — beyond the 6 lines, so appended at the
very end — instead of immediately after the frontmatter; `headerAdded` is
still reported as `true`. -/
theorem claim_C5_header_block_at_end :
    (insertAt (str "---\na\n---\nx\ny\nz") (str "- [ ] t") (str "Inbox")).1
        = str "---\na\n---\nx\ny\nz\n## Inbox\n- [ ] t\n" ∧
    (insertAt (str "---\na\n---\nx\ny\nz") (str "- [ ] t") (str "Inbox")).1
        ≠ str "---\na\n---\n## Inbox\n- [ ] t\n\nx\ny\nz" ∧
    (insertAt (str "---\na\n---\nx\ny\nz") (str "- [ ] t") (str "Inbox")).2.headerAdded
        = true := by
  decide

theorem getNextWorkingDayFuel_none_of_no_day (workingDays : Chars)
    (hnever : ∀ e : Int, isWorkingDay e workingDays = false) :
    ∀ (fuel : Nat) (d : Int), getNextWorkingDayFuel workingDays d fuel = none := by
  intro fuel
  induction fuel with
  | zero => intro d; rfl
  | succ n ih =>
    intro d
    simp only [getNextWorkingDayFuel, hnever (d + 1), Bool.false_eq_true, if_false]
    exact ih (d + 1)

theorem getYesterdayDateFuel_none_of_no_day (workingDays : Chars)
    (hnever : ∀ e : Int, isWorkingDay e workingDays = false) :
    ∀ (fuel : Nat) (d : Int), getYesterdayDateFuel workingDays d fuel = none := by
  intro fuel
  induction fuel with
  | zero => intro d; rfl
  | succ n ih =>
    intro d
    simp only [getYesterdayDateFuel, hnever (d - 1), Bool.false_eq_true, if_false]
    exact ih (d - 1)

/-- Claim C2: for every valid working-days value (validity means every comma
token is a recognized weekday abbreviation and at least one token exists) and
every date, `getNextWorkingDay` returns a date that is strictly later and
satisfies `isWorkingDay`; it advances at least one day even when the start
date itself is a working day. -/
theorem claim_C2_next_working_day (workingDays : Chars) (d : Int)
    (hvalid : isValidWorkingDaysString workingDays = true) :
    ∃ r, getNextWorkingDay workingDays d = some r ∧ d < r ∧
      isWorkingDay r workingDays = true := by
  obtain ⟨i, hi, hmem⟩ := valid_working_days_has_token workingDays hvalid
  exact getNextWorkingDayFuel_finds workingDays 7 d
    (exists_working_day_forward workingDays i hi hmem d)

/-- Witness for claim C2 at the default working-days value and day 0. -/
theorem claim_C2_next_working_day_witness :
    ∃ r, getNextWorkingDay (str "Mon,Tue,Wed,Thu,Fri") 0 = some r ∧ (0 : Int) < r ∧
      isWorkingDay r (str "Mon,Tue,Wed,Thu,Fri") = true :=
  claim_C2_next_working_day (str "Mon,Tue,Wed,Thu,Fri") 0 (by decide)

/-- Claim C8: when the working-days value denotes at least one weekday, the
day-advancing loop of `getNextWorkingDay` and the backward loop of
`getYesterdayDate` both succeed within a bounded number of iterations (7
suffices); when it denotes zero weekdays, the loops fail for every amount of
fuel, i.e. they never terminate. -/
theorem claim_C8_loop_termination (workingDays : Chars) (d : Int) :
    ((∃ i : Nat, i < 7 ∧ weekdayNames.getD i [] ∈ splitOnChar ',' workingDays) →
      (∃ r, getNextWorkingDayFuel workingDays d 7 = some r) ∧
      (∃ r, getYesterdayDateFuel workingDays d 7 = some r)) ∧
    ((∀ i : Nat, i < 7 → weekdayNames.getD i [] ∉ splitOnChar ',' workingDays) →
      ∀ fuel : Nat, getNextWorkingDayFuel workingDays d fuel = none ∧
        getYesterdayDateFuel workingDays d fuel = none) := by
  constructor
  · rintro ⟨i, hi, hmem⟩
    constructor
    · obtain ⟨r, hr, _, _⟩ := getNextWorkingDayFuel_finds workingDays 7 d
        (exists_working_day_forward workingDays i hi hmem d)
      exact ⟨r, hr⟩
    · obtain ⟨r, hr, _, _⟩ := getYesterdayDateFuel_finds workingDays 7 d
        (exists_working_day_backward workingDays i hi hmem d)
      exact ⟨r, hr⟩
  · intro h fuel
    have hnever := no_working_token_never_working workingDays h
    exact ⟨getNextWorkingDayFuel_none_of_no_day workingDays hnever fuel d,
      getYesterdayDateFuel_none_of_no_day workingDays hnever fuel d⟩

/-- Witness for claim C8: the single-day value `"Sat"` terminates within 7
steps in both directions from day 0, while the dayless value `"Foo"` yields
no result for fuel 3. -/
theorem claim_C8_loop_termination_witness :
    ((∃ r, getNextWorkingDayFuel (str "Sat") 0 7 = some r) ∧
      (∃ r, getYesterdayDateFuel (str "Sat") 0 7 = some r)) ∧
    (getNextWorkingDayFuel (str "Foo") 0 3 = none ∧
      getYesterdayDateFuel (str "Foo") 0 3 = none) := by
  constructor
  · exact (claim_C8_loop_termination (str "Sat") 0).1 ⟨5, by omega, by decide⟩
  · exact (claim_C8_loop_termination (str "Foo") 0).2 (by decide) 3

theorem get?_eq_some_getD (L : List α) (i : Nat) (d : α) (h : i < L.length) :
    L.get? i = some (L.getD i d) := by
  induction L generalizing i with
  | nil => simp at h
  | cons x xs ih =>
    cases i with
    | zero => rfl
    | succ i' =>
      simp only [List.length_cons] at h
      simpa using ih i' (by omega)

theorem getD_eq_of_get? (L : List α) (i : Nat) (d b : α) (h : L.get? i = some b) :
    L.getD i d = b := by
  induction L generalizing i with
  | nil => simp at h
  | cons x xs ih =>
    cases i with
    | zero => simp only [List.get?] at h; cases h; rfl
    | succ i' =>
      simp only [List.get?] at h
      simpa using ih i' h

theorem exists_append_of_isPrefixOf {l1 l2 : Chars} (h : l1.isPrefixOf l2 = true) :
    ∃ t, l1 ++ t = l2 := by
  induction l1 generalizing l2 with
  | nil => exact ⟨l2, rfl⟩
  | cons a as ih =>
    cases l2 with
    | nil => simp [List.isPrefixOf] at h
    | cons b bs =>
      simp only [List.isPrefixOf, Bool.and_eq_true, beq_iff_eq] at h
      obtain ⟨hab, hrest⟩ := h
      obtain ⟨t, ht⟩ := ih hrest
      exact ⟨t, by rw [hab, List.cons_append, ht]⟩

theorem todo_line_not_hash_line (l : Chars) (h : FileAlt.isTodoLine l = true) :
    FileAlt.isHashLine l = false := by
  unfold FileAlt.isTodoLine at h
  unfold FileAlt.isHashLine
  by_cases h1 : (str "- [ ]").isPrefixOf (trimJs l) = true
  · obtain ⟨ys, hys⟩ := exists_append_of_isPrefixOf h1
    have hcons : str "- [ ]" = '-' :: str " [ ]" := rfl
    rw [hcons] at hys
    rw [← hys]
    simp [str, List.isPrefixOf]
  · have h2 : (str "- [x]").isPrefixOf (trimJs l) = true := by
      simp only [Bool.not_eq_true] at h1
      rw [h1] at h
      simpa using h
    obtain ⟨ys, hys⟩ := exists_append_of_isPrefixOf h2
    have hcons : str "- [x]" = '-' :: str " [x]" := rfl
    rw [hcons] at hys
    rw [← hys]
    simp [str, List.isPrefixOf]

theorem hasTodosScan_iff (ls : List Chars) :
    FileAlt.hasTodosScan ls = true ↔
      ∃ l ∈ ls.takeWhile (fun x => !(FileAlt.isHashLine x)),
        FileAlt.isTodoLine l = true := by
  induction ls with
  | nil => simp [FileAlt.hasTodosScan]
  | cons l rest ih =>
    simp only [FileAlt.hasTodosScan]
    by_cases ht : FileAlt.isTodoLine l = true
    · rw [if_pos ht]
      have hh : (!(FileAlt.isHashLine l)) = true := by
        rw [todo_line_not_hash_line l ht]; rfl
      rw [List.takeWhile_cons_of_pos (p := fun x => !(FileAlt.isHashLine x)) hh]
      simp only [true_iff]
      exact ⟨l, List.mem_cons_self _ _, ht⟩
    · rw [if_neg ht]
      by_cases hh : FileAlt.isHashLine l = true
      · rw [if_pos hh]
        have hneg : ¬((fun x => !(FileAlt.isHashLine x)) l = true) := by
          simp [hh]
        rw [List.takeWhile_cons_of_neg (p := fun x => !(FileAlt.isHashLine x)) hneg]
        simp
      · have hpos : (!(FileAlt.isHashLine l)) = true := by
          simp only [Bool.not_eq_true] at hh
          rw [hh]; rfl
        rw [if_neg hh,
          List.takeWhile_cons_of_pos (p := fun x => !(FileAlt.isHashLine x)) hpos]
        rw [ih]
        constructor
        · rintro ⟨a, ha, hta⟩
          exact ⟨a, List.mem_cons.mpr (Or.inr ha), hta⟩
        · rintro ⟨a, ha, hta⟩
          rcases List.mem_cons.mp ha with rfl | ha
          · exact absurd hta ht
          · exact ⟨a, ha, hta⟩

/-- Formalises the invariant claimed in C6: every line whose trimmed text
starts with `#` still has a to-do body line before the next header line or
the end of the file. -/
def everySectionNonEmpty (lines : List Chars) : Bool :=
  (List.range lines.length).all fun i =>
    !(FileAlt.isHashLine (lines.getD i [])) || FileAlt.hasTodosScan (lines.drop (i + 1))

/-- Position of the first `# Inbox`/`## Inbox` header line of `L`. -/
def FirstInboxAt (L : List Chars) (i : Nat) : Prop :=
  i < L.length ∧ FileAlt.isInboxHeader (L.getD i []) = true ∧
    ∀ j, j < i → FileAlt.isInboxHeader (L.getD j []) = false

/-- A to-do line occurs under line `i` before the next header line. -/
def TodoInInbox (L : List Chars) (i : Nat) : Prop :=
  ∃ l ∈ (L.drop (i + 1)).takeWhile (fun x => !(FileAlt.isHashLine x)),
    FileAlt.isTodoLine l = true

instance (L : List Chars) (i : Nat) : Decidable (FirstInboxAt L i) := by
  unfold FirstInboxAt
  infer_instance

instance (L : List Chars) (i : Nat) : Decidable (TodoInInbox L i) := by
  unfold TodoInInbox
  infer_instance

/-- Claim C6 is false as stated: before the deletion every section of the
file has a to-do, but after deleting the only to-do of `## Foo` its header
line survives with zero to-do body lines — the current `deleteLine` performs
no cleanup at all, and the secondary variant's cleanup inspects only the
hard-coded Inbox header. -/
theorem claim_C6_counterexample :
    everySectionNonEmpty (splitNl
        (str "## Foo\n- [ ] a\n\n## Inbox\n- [ ] b")) = true ∧
    everySectionNonEmpty (splitNl (FileAlt.deleteLine
        (str "## Foo\n- [ ] a\n\n## Inbox\n- [ ] b") 1 (str "- [ ] a"))) = false ∧
    everySectionNonEmpty (splitNl (deleteLine
        (str "## Foo\n- [ ] a\n\n## Inbox\n- [ ] b") 1 (str "- [ ] a"))) = false := by
  decide

/-- Claim C6 (amended): the current `deleteLine` removes only a single line
equal to the expected text and never removes a header; the secondary
variant's cleanup collapses exactly the first `# Inbox`/`## Inbox` header,
removing it (and one immediately-following empty line) precisely when no
to-do line remains between it and the next header line. -/
theorem claim_C6_inbox_only_cleanup (content : Chars) (n : Nat) (t : Chars)
    (L : List Chars) (i : Nat) :
    ((∃ k, (splitNl content).get? k = some t ∧
        deleteLine content n t = joinNl ((splitNl content).eraseIdx k)) ∨
      deleteLine content n t = content) ∧
    (FirstInboxAt L i →
      (TodoInInbox L i → FileAlt.inboxCleanup L = L) ∧
      (¬TodoInInbox L i →
        FileAlt.inboxCleanup L =
          (if (L.eraseIdx i).get? i = some [] then (L.eraseIdx i).eraseIdx i
           else L.eraseIdx i))) := by
  constructor
  · by_cases h1 : (splitNl content).get? n = some t
    · refine Or.inl ⟨n, h1, ?_⟩
      simp only [deleteLine]
      rw [if_pos h1]
    · cases hfind : findIdxJs (fun l => l = t) (splitNl content) with
      | some k =>
        obtain ⟨⟨a, ha, hpa⟩, _⟩ := findIdxJs_some _ _ _ hfind
        have hat : a = t := by simpa using hpa
        refine Or.inl ⟨k, hat ▸ ha, ?_⟩
        simp only [deleteLine]
        rw [if_neg h1, hfind]
      | none =>
        refine Or.inr ?_
        simp only [deleteLine]
        rw [if_neg h1, hfind]
        exact joinWithChar_splitOnChar '\n' content
  · rintro ⟨hilen, hihdr, hmin⟩
    have hfind : findIdxJs FileAlt.isInboxHeader L = some i := by
      apply findIdxJs_some_of _ _ i (L.getD i []) (get?_eq_some_getD L i [] hilen) hihdr
      intro j hj b hb
      have := getD_eq_of_get? L j [] b hb
      rw [← this]
      exact hmin j hj
    constructor
    · intro htodo
      simp only [FileAlt.inboxCleanup, hfind]
      rw [if_pos ((hasTodosScan_iff _).mpr htodo)]
    · intro hnot
      simp only [FileAlt.inboxCleanup, hfind]
      have hscan : FileAlt.hasTodosScan (L.drop (i + 1)) = false := by
        by_cases hs : FileAlt.hasTodosScan (L.drop (i + 1)) = true
        · exact absurd ((hasTodosScan_iff _).mp hs) hnot
        · simpa using hs
      rw [if_neg (by simp [hscan])]

/-- Witness for the amended claim C6: a task-less Inbox header (followed by
an empty line) is removed together with that empty line, while an Inbox
header with a to-do is kept. -/
theorem claim_C6_inbox_only_cleanup_witness :
    FileAlt.inboxCleanup [str "## Inbox", [], str "x"] = [str "x"] ∧
    FileAlt.inboxCleanup [str "## Inbox", str "- [ ] a"] =
      [str "## Inbox", str "- [ ] a"] := by
  constructor
  · have h := ((claim_C6_inbox_only_cleanup [] 0 [] [str "## Inbox", [], str "x"] 0).2
      (by decide)).2 (by decide)
    exact h.trans (by decide)
  · exact ((claim_C6_inbox_only_cleanup [] 0 []
      [str "## Inbox", str "- [ ] a"] 0).2 (by decide)).1 (by decide)

theorem consHead_length (c : Char) (r : List Chars) (h : r ≠ []) :
    (consHead c r).length = r.length := by
  cases r with
  | nil => exact absurd rfl h
  | cons x xs => rfl

theorem splitOnChar_length_le (sep : Char) (cs : Chars) :
    (splitOnChar sep cs).length ≤ cs.length + 1 := by
  induction cs with
  | nil => simp [splitOnChar]
  | cons c rest ih =>
    simp only [splitOnChar]
    by_cases hc : c = sep
    · rw [if_pos hc]
      simp only [List.length_cons]
      omega
    · rw [if_neg hc, consHead_length c _ (splitOnChar_ne_nil sep rest)]
      simp only [List.length_cons]
      omega

theorem mem_of_getLast?_eq (l : List α) (a : α) (h : l.getLast? = some a) : a ∈ l := by
  induction l with
  | nil => simp at h
  | cons x xs ih =>
    cases xs with
    | nil =>
      simp only [List.getLast?_singleton, Option.some.injEq] at h
      simp [h]
    | cons y ys =>
      rw [List.getLast?_cons_cons] at h
      exact List.mem_cons.mpr (Or.inr (ih h))

theorem two_le_splitOnChar_length_of_mem (sep : Char) (cs : Chars) (h : sep ∈ cs) :
    2 ≤ (splitOnChar sep cs).length := by
  induction cs with
  | nil => simp at h
  | cons c rest ih =>
    simp only [splitOnChar]
    by_cases hc : c = sep
    · rw [if_pos hc]
      have := splitOnChar_ne_nil sep rest
      have : 0 < (splitOnChar sep rest).length := List.length_pos.mpr this
      simp only [List.length_cons]
      omega
    · rw [if_neg hc, consHead_length c _ (splitOnChar_ne_nil sep rest)]
      have hmem : sep ∈ rest := by
        rcases List.mem_cons.mp h with h1 | h1
        · exact absurd h1.symm hc
        · exact h1
      exact ih hmem

theorem splitOnChar_getLast_of_last_sep (sep : Char) (cs : Chars)
    (h : cs.getLast? = some sep) : (splitOnChar sep cs).getLast? = some [] := by
  induction cs with
  | nil => simp at h
  | cons c rest ih =>
    cases rest with
    | nil =>
      simp only [List.getLast?_singleton, Option.some.injEq] at h
      subst h
      simp [splitOnChar]
    | cons d rest' =>
      rw [List.getLast?_cons_cons] at h
      have hr := ih h
      have hmem : sep ∈ d :: rest' := mem_of_getLast?_eq _ _ h
      have hlen : 2 ≤ (splitOnChar sep (d :: rest')).length :=
        two_le_splitOnChar_length_of_mem sep _ hmem
      have hstep : splitOnChar sep (c :: d :: rest') =
          if c = sep then [] :: splitOnChar sep (d :: rest')
          else consHead c (splitOnChar sep (d :: rest')) := rfl
      rw [hstep]
      by_cases hc : c = sep
      · rw [if_pos hc]
        cases hx : splitOnChar sep (d :: rest') with
        | nil => exact absurd hx (splitOnChar_ne_nil sep _)
        | cons x xs =>
          rw [hx] at hr
          rw [List.getLast?_cons_cons]
          exact hr
      · rw [if_neg hc]
        cases hx : splitOnChar sep (d :: rest') with
        | nil => exact absurd hx (splitOnChar_ne_nil sep _)
        | cons x xs =>
          cases xs with
          | nil => rw [hx] at hlen; simp at hlen
          | cons y ys =>
            rw [hx] at hr
            rw [List.getLast?_cons_cons] at hr
            simp only [consHead]
            rw [List.getLast?_cons_cons]
            exact hr

theorem splitOnChar_last_empty_decomp (sep : Char) (cs : Chars)
    (h : cs.getLast? = some sep) :
    splitOnChar sep cs = (splitOnChar sep cs).dropLast ++ [[]] := by
  have h1 := splitOnChar_getLast_of_last_sep sep cs h
  have hne := splitOnChar_ne_nil sep cs
  have h2 := List.dropLast_append_getLast hne
  have h3 : (splitOnChar sep cs).getLast hne = [] := by
    have := List.getLast?_eq_getLast (splitOnChar sep cs) hne
    rw [this] at h1
    simpa using h1
  rw [← h3]
  exact h2.symm

theorem take_append_left_of_le (l₁ l₂ : List α) (n : Nat) (h : n ≤ l₁.length) :
    (l₁ ++ l₂).take n = l₁.take n := by
  rw [List.take_append_eq_append_take]
  have h0 : n - l₁.length = 0 := by omega
  rw [h0]
  simp

/-- Lines of the frontmatter block: the complete lines of the regex match
(`content.take L` with its trailing empty piece removed). -/
def fmLines (content : Chars) (L : Nat) : List Chars :=
  (splitNl (content.take L)).dropLast

theorem fmLines_facts (content : Chars) (L : Nat)
    (hnl : (content.take L).getLast? = some '\n') :
    fmLines content L ≠ [] ∧ (∀ l ∈ fmLines content L, '\n' ∉ l) ∧
      splitNl content = fmLines content L ++ splitNl (content.drop L) ∧
      (fmLines content L).length ≤ L := by
  have hmem : '\n' ∈ content.take L := mem_of_getLast?_eq _ _ hnl
  have h2le : 2 ≤ (splitNl (content.take L)).length :=
    two_le_splitOnChar_length_of_mem '\n' _ hmem
  have hdrop_len : (fmLines content L).length = (splitNl (content.take L)).length - 1 := by
    simp [fmLines, List.length_dropLast]
  have hBne : fmLines content L ≠ [] := by
    intro hc
    have := congrArg List.length hc
    rw [hdrop_len] at this
    simp at this
    omega
  have hBnf : ∀ l ∈ fmLines content L, '\n' ∉ l := by
    intro l hl
    exact not_mem_of_mem_splitOnChar '\n' _ l (List.mem_of_mem_dropLast hl)
  have hdecomp : splitNl (content.take L) = fmLines content L ++ [[]] :=
    splitOnChar_last_empty_decomp '\n' _ hnl
  have hm : content.take L = joinNl (fmLines content L) ++ ['\n'] := by
    have hro : joinWithChar '\n' (splitNl (content.take L)) = content.take L :=
      joinWithChar_splitOnChar '\n' _
    rw [hdecomp, joinWithChar_append '\n' _ [[]] hBne (by simp)] at hro
    simpa using hro.symm
  have hsplit : splitNl content = fmLines content L ++ splitNl (content.drop L) := by
    have hc : content = joinNl (fmLines content L) ++ '\n' :: content.drop L := by
      conv_lhs => rw [← List.take_append_drop L content]
      rw [hm]
      simp
    conv_lhs => rw [hc]
    exact splitOnChar_join_parts '\n' _ _ hBne hBnf
  have hlen : (fmLines content L).length ≤ L := by
    have h1 : (splitNl (content.take L)).length ≤ (content.take L).length + 1 :=
      splitOnChar_length_le '\n' _
    have h2 : (content.take L).length ≤ L := by
      rw [List.length_take]
      omega
    omega
  exact ⟨hBne, hBnf, hsplit, hlen⟩

theorem splitNl_joinNl_take (lines2 B : List Chars) (hB : lines2.take B.length = B)
    (hBne : B ≠ []) (hnf : ∀ l ∈ B, '\n' ∉ l) (hlen : B.length < lines2.length) :
    (splitNl (joinNl lines2)).take B.length = B := by
  have hT : lines2 = B ++ lines2.drop B.length := by
    conv_lhs => rw [← List.take_append_drop B.length lines2]
    rw [hB]
  have hT2ne : lines2.drop B.length ≠ [] := by
    intro hc
    have : lines2.length ≤ B.length := by
      have := congrArg List.length hc
      simp only [List.length_drop, List.length_nil] at this
      omega
    omega
  rw [hT]
  unfold joinNl splitNl
  rw [joinWithChar_append '\n' B _ hBne hT2ne]
  rw [splitOnChar_join_parts '\n' B _ hBne hnf]
  rw [take_append_left_of_le _ _ _ (le_refl B.length)]
  exact List.take_length B

theorem spliceIns_length (l : List α) (p : Nat) (new : List α) :
    (spliceIns l p new).length = l.length + new.length := by
  unfold spliceIns
  simp only [List.length_append, List.length_take, List.length_drop]
  omega

theorem spliceIns_take_front (l B : List Chars) (p : Nat) (new : List Chars)
    (hp : B.length ≤ p) (hlen : B.length ≤ l.length) (htake : l.take B.length = B) :
    (spliceIns l p new).take B.length = B := by
  unfold spliceIns
  rw [show l.take p ++ new ++ l.drop p = (l.take p ++ new) ++ l.drop p by
    simp [List.append_assoc]]
  rw [take_append_left_of_le _ _ _ (by
    simp only [List.length_append, List.length_take]
    omega)]
  rw [take_append_left_of_le _ _ _ (by
    simp only [List.length_take]
    omega)]
  rw [List.take_take, min_eq_left hp, htake]

theorem removeBlanksAt_take_front (l B : List Chars) (p : Nat)
    (hp : B.length ≤ p) (hlen : B.length ≤ l.length) (htake : l.take B.length = B) :
    (removeBlanksAt l p).take B.length = B := by
  unfold removeBlanksAt
  rw [take_append_left_of_le _ _ _ (by
    simp only [List.length_take]
    omega)]
  rw [List.take_take, min_eq_left hp, htake]

theorem le_removeBlanksAt_length (l : List Chars) (p : Nat) :
    min p l.length ≤ (removeBlanksAt l p).length := by
  unfold removeBlanksAt
  simp only [List.length_append, List.length_take]
  omega

theorem insertAt_found (content text header : Chars) (L : Nat) (rel : Nat)
    (hfm : frontMatterLen content = some L)
    (hrel : findHeaderLine ((splitNl content).drop
        ((splitNl (content.take L)).length)) header = some rel) :
    insertAt content text header =
      (joinNl (spliceIns (removeBlanksAt (splitNl content) (rel + L + 1))
          (rel + L + 1) [text, []]),
       ⟨[rel + L + 1, rel + L + 1 + 1], false⟩) := by
  simp only [insertAt, hfm, Option.getD_some, hrel]

theorem insertAt_notfound_fm (content text header : Chars) (L : Nat)
    (hfm : frontMatterLen content = some L)
    (hrel : findHeaderLine ((splitNl content).drop
        ((splitNl (content.take L)).length)) header = none) :
    insertAt content text header =
      (joinNl (spliceIns (splitNl content) L
          ['#' :: '#' :: ' ' :: header ++ '\n' :: text ++ ['\n']]),
       ⟨[L, L + 1], true⟩) := by
  simp only [insertAt, hfm, Option.getD_some, hrel]

/-- Claim C3: when the content begins with a `---`-delimited frontmatter
block (the regex matches with length `L`, the match ending at a newline),
`insertAt` leaves the block's lines unchanged in place at the top of the
file, and every inserted line index lies at or beyond the first line after
the block — strictly after the block itself. -/
theorem claim_C3_frontmatter_preserved (content text header : Chars) (L : Nat)
    (hfm : frontMatterLen content = some L)
    (hnl : (content.take L).getLast? = some '\n') :
    (splitNl content).take (fmLines content L).length = fmLines content L ∧
    (splitNl (insertAt content text header).1).take (fmLines content L).length
        = fmLines content L ∧
    ∀ i ∈ (insertAt content text header).2.insertedLines,
      (fmLines content L).length ≤ i := by
  obtain ⟨hBne, hBnf, hsplit, hBL⟩ := fmLines_facts content L hnl
  have hRne : splitNl (content.drop L) ≠ [] := splitOnChar_ne_nil '\n' _
  have hRpos : 0 < (splitNl (content.drop L)).length := List.length_pos.mpr hRne
  have hlines_len : (fmLines content L).length < (splitNl content).length := by
    rw [hsplit, List.length_append]
    omega
  have htake : (splitNl content).take (fmLines content L).length = fmLines content L := by
    rw [hsplit, take_append_left_of_le _ _ _ (le_refl _)]
    exact List.take_length _
  refine ⟨htake, ?_⟩
  cases hrel : findHeaderLine ((splitNl content).drop
      ((splitNl (content.take L)).length)) header with
  | some rel =>
    rw [insertAt_found content text header L rel hfm hrel]
    have h1 : (removeBlanksAt (splitNl content) (rel + L + 1)).take
        (fmLines content L).length = fmLines content L :=
      removeBlanksAt_take_front _ _ _ (by omega) (by omega) htake
    have h1len : (fmLines content L).length ≤
        (removeBlanksAt (splitNl content) (rel + L + 1)).length := by
      have := le_removeBlanksAt_length (splitNl content) (rel + L + 1)
      omega
    have h2 : (spliceIns (removeBlanksAt (splitNl content) (rel + L + 1))
        (rel + L + 1) [text, []]).take (fmLines content L).length
          = fmLines content L :=
      spliceIns_take_front _ _ _ _ (by omega) h1len h1
    have h2len : (fmLines content L).length <
        (spliceIns (removeBlanksAt (splitNl content) (rel + L + 1))
          (rel + L + 1) [text, []]).length := by
      rw [spliceIns_length]
      simp only [List.length_cons, List.length_nil]
      omega
    refine ⟨splitNl_joinNl_take _ _ h2 hBne hBnf h2len, ?_⟩
    intro i hi
    simp only [List.mem_cons, List.not_mem_nil, or_false] at hi
    rcases hi with rfl | rfl <;> omega
  | none =>
    rw [insertAt_notfound_fm content text header L hfm hrel]
    have h2 : (spliceIns (splitNl content) L
        ['#' :: '#' :: ' ' :: header ++ '\n' :: text ++ ['\n']]).take
          (fmLines content L).length = fmLines content L :=
      spliceIns_take_front _ _ _ _ hBL (by omega) htake
    have h2len : (fmLines content L).length <
        (spliceIns (splitNl content) L
          ['#' :: '#' :: ' ' :: header ++ '\n' :: text ++ ['\n']]).length := by
      rw [spliceIns_length]
      simp only [List.length_cons, List.length_nil]
      omega
    refine ⟨splitNl_joinNl_take _ _ h2 hBne hBnf h2len, ?_⟩
    intro i hi
    simp only [List.mem_cons, List.not_mem_nil, or_false] at hi
    rcases hi with rfl | rfl <;> omega

/-- Witness for claim C3 at a concrete note with frontmatter `---\nt: 1\n---`
(match length 13, three block lines): the three frontmatter lines survive the
insert and both inserted indices land after them. -/
theorem claim_C3_frontmatter_preserved_witness :
    (splitNl (str "---\nt: 1\n---\n## Inbox\nx")).take
        (fmLines (str "---\nt: 1\n---\n## Inbox\nx") 13).length
      = fmLines (str "---\nt: 1\n---\n## Inbox\nx") 13 ∧
    (splitNl (insertAt (str "---\nt: 1\n---\n## Inbox\nx") (str "- [ ] t")
        (str "Inbox")).1).take
        (fmLines (str "---\nt: 1\n---\n## Inbox\nx") 13).length
      = fmLines (str "---\nt: 1\n---\n## Inbox\nx") 13 ∧
    ∀ i ∈ (insertAt (str "---\nt: 1\n---\n## Inbox\nx") (str "- [ ] t")
        (str "Inbox")).2.insertedLines,
      (fmLines (str "---\nt: 1\n---\n## Inbox\nx") 13).length ≤ i :=
  claim_C3_frontmatter_preserved (str "---\nt: 1\n---\n## Inbox\nx")
    (str "- [ ] t") (str "Inbox") 13 (by decide) (by decide)
